import Mathlib

/-!
Verification development for the missingdata package (missingdata/base.py and
missingdata/utils.py): a shallow embedding of the filtering, labeling, grouping
and frequency computations of the blackholes pipeline, with theorems settling
the documented behavioral claims.

A table is embedded as a list of rows, each row a list of cells; a cell is
either a present value (`some v`) or a missing one (`none`), matching the
null marker of the dataframe library.
-/

/-- Cell values; `none` is the missing marker (NaN / null in the source). -/
abbrev Table := List (List (Option String))

/-- Mirrors `data.isnull().values` for one row: a boolean per cell,
true where the cell is missing. -/
def isnull_row (r : List (Option String)) : List Bool :=
  r.map Option.isNone

/-- Mirrors `cell_flag = data.isnull().values` (base.py line 447). -/
def cell_flag (t : Table) : List (List Bool) :=
  t.map isnull_row

/-- Number of true entries in a boolean list (numpy sum over booleans). -/
def countTrue (l : List Bool) : Nat :=
  l.count true

/-- Number of columns of the table, `data.shape[1]`
(rows of a dataframe are rectangular). -/
def num_cols (t : Table) : Nat :=
  (t.headD []).length

/-- Mirrors `cell_flag.sum(axis=1).ravel()` (base.py line 449):
one missing-cell count per row. -/
def row_counts (m : List (List Bool)) : List Nat :=
  m.map countTrue

/-- Mirrors `cell_flag.sum(axis=0).ravel()` (base.py line 450):
one missing-cell count per column. -/
def col_counts (m : List (List Bool)) (ncols : Nat) : List Nat :=
  (List.range ncols).map (fun c => countTrue (m.map (fun r => r.getD c false)))

/-- Mirrors `row_freq / row_freq.size` (base.py line 452): the per-row counts
divided by the size of the count vector, which is the number of ROWS. -/
def row_ratios (t : Table) : List ℚ :=
  let rc := row_counts (cell_flag t)
  rc.map (fun (c : Nat) => (c : ℚ) / (rc.length : ℚ))

/-- Mirrors `col_freq / col_freq.size` (base.py line 453): the per-column counts
divided by the size of the count vector, which is the number of COLUMNS. -/
def col_ratios (t : Table) : List ℚ :=
  let cc := col_counts (cell_flag t) (num_cols t)
  cc.map (fun (c : Nat) => (c : ℚ) / (cc.length : ℚ))

/-- The row frequencies as the documentation words them: each row counts its
missing cells against the number of cells in that row, i.e. the number of
columns. Stated for comparison with `row_ratios`, which embeds the source. -/
def row_ratios_docstring (t : Table) : List ℚ :=
  (row_counts (cell_flag t)).map (fun (c : Nat) => (c : ℚ) / (num_cols t : ℚ))

/-- Mirrors `_validate_filter_spec` (base.py lines 469-494) for the tuple/list
branch: a spec is a list of rationals; length must be 2 and both endpoints in
the closed interval 0..1, else a ValueError; on success the inclusive keep
predicate `perc >= low and perc <= high` is returned. The callable branch of
the source is not invoked by any claim and is not modelled. -/
def _validate_filter_spec (spec : List ℚ) : Except String (ℚ → Bool) :=
  if spec.length ≠ 2 then
    .error "Filter perc must be specified as a tuple of two values"
  else if spec.any (fun v => decide (v < 0)) || spec.any (fun v => decide (1 < v)) then
    .error "Filter perc must be specified as a tuple of two values"
  else
    .ok (fun perc => decide (spec.getD 0 0 ≤ perc) && decide (perc ≤ spec.getD 1 0))

/-- Boolean-mask selection, mirroring `data.iloc[mask]` / `arr[mask]`. -/
def mask_filter {β : Type} (mask : List Bool) (l : List β) : List β :=
  (mask.zip l).filterMap (fun p => if p.1 then some p.2 else none)

/-- Mirrors `freq_filter` (base.py lines 440-455): validate both specs, build
the cell-wise missing mask, compute per-axis ratios by dividing each count
vector by its own size, apply the keep predicates, and slice the table to the
kept rows and columns, returning the sub-table and both keep masks. -/
def freq_filter (t : Table) (row_spec col_spec : List ℚ) :
    Except String (Table × List Bool × List Bool) := do
  let row_keep ← _validate_filter_spec row_spec
  let col_keep ← _validate_filter_spec col_spec
  let rr := row_ratios t
  let cr := col_ratios t
  let rmask := rr.map row_keep
  let cmask := cr.map col_keep
  pure ((mask_filter rmask t).map (mask_filter cmask), rmask, cmask)

/-- Machine epsilon of a 32-bit float, `np.finfo(np.float32).eps = 2 ** (-23)`,
as an exact rational. -/
def float32_eps : ℚ := 1 / 2 ^ 23

/-- The four-by-three table of the example scenario: missing cells exactly at
(0,0), (1,1) and (2,2). -/
def exampleTable : Table :=
  [[none, some "a", some "b"],
   [some "c", none, some "d"],
   [some "e", some "f", none],
   [some "g", some "h", some "i"]]

/-- The three-by-three sub-table left after dropping row 3. -/
def exampleKept : Table :=
  [[none, some "a", some "b"],
   [some "c", none, some "d"],
   [some "e", some "f", none]]

/-- One-row, two-column table with every cell missing. -/
def oneRowAllMissing : Table := [[none, none]]

/-- Claim C1: the source divides each row count by the SIZE of the row-count
vector, which is the number of rows (4), not the number of columns (3): on the
example table the computed row ratios are 1/4, 1/4, 1/4, 0 rather than the
documented 1/3, 1/3, 1/3, 0; the docstring-faithful divisor gives the latter.
Symmetrically the column ratios are divided by the number of columns (3), not
the number of rows (4) as the claim states. Filtering with the epsilon spec
still keeps rows 0-2 and drops row 3. -/
theorem C1_row_freq_divisor_bug :
    row_ratios exampleTable = [1/4, 1/4, 1/4, 0]
    ∧ row_ratios exampleTable ≠ [1/3, 1/3, 1/3, 0]
    ∧ row_ratios_docstring exampleTable = [1/3, 1/3, 1/3, 0]
    ∧ col_ratios exampleTable = [1/3, 1/3, 1/3]
    ∧ col_ratios exampleTable ≠ [1/4, 1/4, 1/4]
    ∧ freq_filter exampleTable [float32_eps, 1] [float32_eps, 1]
        = .ok (exampleKept, [true, true, true, false], [true, true, true]) := by
  refine ⟨?_, ?_, ?_, ?_, ?_, ?_⟩ <;>
    norm_num [freq_filter, _validate_filter_spec, row_ratios, row_ratios_docstring, col_ratios,
      row_counts, col_counts, cell_flag, isnull_row, countTrue, num_cols, exampleTable,
      exampleKept, mask_filter, Function.comp, float32_eps, List.range_succ, Bind.bind,
      Except.bind, pure, Except.pure, List.singleton, Bool.and_eq_true, decide_eq_true_eq,
      decide_eq_false_iff_not, List.filterMap_cons, List.zip]

/-- Claim C2: with the tautological spec (0, 1) on both axes the source does
NOT return the table unchanged: on a one-row two-column table with both cells
missing, the row ratio is 2/1 = 2, which the inclusive 0..1 window rejects, so
the single row is dropped and the result is empty. -/
theorem C2_tautological_spec_not_identity :
    row_ratios oneRowAllMissing = [2]
    ∧ freq_filter oneRowAllMissing [0, 1] [0, 1]
        = .ok ([], [false], [true, true])
    ∧ ([] : Table) ≠ oneRowAllMissing := by
  refine ⟨?_, ?_, by decide⟩ <;>
    norm_num [freq_filter, _validate_filter_spec, row_ratios, col_ratios, row_counts, col_counts,
      cell_flag, isnull_row, countTrue, num_cols, oneRowAllMissing, mask_filter, Function.comp,
      List.range_succ, Bind.bind, Except.bind, pure, Except.pure, List.singleton,
      Bool.and_eq_true, decide_eq_true_eq, decide_eq_false_iff_not, List.filterMap_cons,
      List.zip]

/-- Mirrors `_set_default_filter_spec` (base.py lines 458-466): when no spec is
supplied, the default is the inclusive window (0, 1) for an axis strictly
shorter than the displayability maximum, and (float32 epsilon, 1.0) otherwise;
a supplied spec passes through unchanged. -/
def _set_default_filter_spec (spec : Option (List ℚ)) (size max_size : Nat) : List ℚ :=
  match spec with
  | none => if size < max_size then [0, 1] else [float32_eps, 1]
  | some s => s

/-- Modelled from the spec: base.py imports `missingdata.config as cfg`, but
config.py is not among the provided sources; the spec fixes the row
displayability threshold `cfg.MAX_ROWS_DISPLAYABLE` at 60. -/
def MAX_ROWS_DISPLAYABLE : Nat := 60

/-- Modelled from the spec: base.py imports `missingdata.config as cfg`, but
config.py is not among the provided sources; the spec fixes the column
displayability threshold `cfg.MAX_COLS_DISPLAYABLE` at 80. -/
def MAX_COLS_DISPLAYABLE : Nat := 80

/-- Claim C6: a pair spec (low, high) validates to the inclusive keep predicate
`low <= ratio <= high`; validation errors exactly when the list does not have
length 2 or some endpoint lies outside the closed interval 0..1; the spec
(3/2, 2) errors, and `freq_filter` called with it propagates the error before
any filtering. -/
theorem C6_filter_spec_validation :
    (∀ low high r : ℚ, 0 ≤ low → low ≤ 1 → 0 ≤ high → high ≤ 1 →
      ∃ f, _validate_filter_spec [low, high] = .ok f
        ∧ (f r = true ↔ low ≤ r ∧ r ≤ high))
    ∧ (∀ spec : List ℚ, (∃ e, _validate_filter_spec spec = .error e) ↔
        (spec.length ≠ 2 ∨ ∃ x ∈ spec, x < 0 ∨ 1 < x))
    ∧ (∃ e, _validate_filter_spec [3/2, 2] = .error e)
    ∧ (∀ t : Table, ∃ e, freq_filter t [3/2, 2] [0, 1] = .error e) := by
  have herr : ∀ spec : List ℚ, (∃ e, _validate_filter_spec spec = .error e) ↔
      (spec.length ≠ 2 ∨ ∃ x ∈ spec, x < 0 ∨ 1 < x) := by
    intro spec
    unfold _validate_filter_spec
    by_cases h2 : spec.length ≠ 2
    · simp [h2]
    · rw [if_neg h2]
      by_cases h3 : (spec.any (fun v => decide (v < 0)) || spec.any (fun v => decide (1 < v)))
          = true
      · rw [if_pos h3]
        simp only [Bool.or_eq_true, List.any_eq_true, decide_eq_true_eq] at h3
        simp only [h2, false_or]
        constructor
        · intro _
          rcases h3 with ⟨x, hx, hlt⟩ | ⟨x, hx, hlt⟩
          · exact ⟨x, hx, Or.inl hlt⟩
          · exact ⟨x, hx, Or.inr hlt⟩
        · intro _; exact ⟨_, rfl⟩
      · rw [if_neg h3]
        simp only [Bool.or_eq_true, List.any_eq_true, decide_eq_true_eq, not_or] at h3
        simp only [h2, false_or]
        constructor
        · rintro ⟨e, he⟩; cases he
        · rintro ⟨x, hx, hlt | hlt⟩
          · exact absurd ⟨x, hx, hlt⟩ h3.1
          · exact absurd ⟨x, hx, hlt⟩ h3.2
  have hbad : ∃ e, _validate_filter_spec [3/2, 2] = .error e := by
    rw [herr]
    refine Or.inr ⟨2, by simp, Or.inr (by norm_num)⟩
  refine ⟨?_, herr, hbad, ?_⟩
  · intro low high r h0l h1l h0h h1h
    refine ⟨fun perc => decide ([low, high].getD 0 0 ≤ perc)
        && decide (perc ≤ [low, high].getD 1 0), ?_, ?_⟩
    · unfold _validate_filter_spec
      rw [if_neg (by simp), if_neg ?_]
      simp only [Bool.or_eq_true, List.any_eq_true, decide_eq_true_eq]
      rintro (⟨x, hx, hlt⟩ | ⟨x, hx, hlt⟩) <;>
        simp only [List.mem_cons, List.mem_singleton, List.not_mem_nil, or_false] at hx <;>
        rcases hx with rfl | rfl <;> linarith
    · simp [Bool.and_eq_true, decide_eq_true_eq]
  · intro t
    obtain ⟨e, he⟩ := hbad
    exact ⟨e, by simp [freq_filter, he, Bind.bind, Except.bind]⟩

/-- Witness for C6 at the concrete spec (0, 1) and ratio 1/2. -/
theorem C6_filter_spec_validation_witness :
    ∃ f, _validate_filter_spec [0, 1] = .ok f
      ∧ (f (1/2) = true ↔ (0:ℚ) ≤ 1/2 ∧ (1/2:ℚ) ≤ 1) :=
  C6_filter_spec_validation.1 0 1 (1/2) (by norm_num) (by norm_num) (by norm_num) (by norm_num)

/-- Claim C7: with no spec supplied the default is (0, 1) when the axis length
is strictly below the displayability threshold (60 for rows, 80 for columns)
and (float32 epsilon, 1.0) otherwise; the epsilon default rejects a ratio of
zero while the (0, 1) default keeps it. -/
theorem C7_default_filter_spec :
    (∀ n, n < MAX_ROWS_DISPLAYABLE →
      _set_default_filter_spec none n MAX_ROWS_DISPLAYABLE = [0, 1])
    ∧ (∀ n, MAX_ROWS_DISPLAYABLE ≤ n →
      _set_default_filter_spec none n MAX_ROWS_DISPLAYABLE = [float32_eps, 1])
    ∧ (∀ n, n < MAX_COLS_DISPLAYABLE →
      _set_default_filter_spec none n MAX_COLS_DISPLAYABLE = [0, 1])
    ∧ (∀ n, MAX_COLS_DISPLAYABLE ≤ n →
      _set_default_filter_spec none n MAX_COLS_DISPLAYABLE = [float32_eps, 1])
    ∧ MAX_ROWS_DISPLAYABLE = 60 ∧ MAX_COLS_DISPLAYABLE = 80
    ∧ (∃ f, _validate_filter_spec [float32_eps, 1] = .ok f ∧ f 0 = false)
    ∧ (∃ f, _validate_filter_spec [0, 1] = .ok f ∧ f 0 = true) := by
  refine ⟨?_, ?_, ?_, ?_, rfl, rfl, ?_, ?_⟩
  · intro n h; simp [_set_default_filter_spec, h]
  · intro n h; simp [_set_default_filter_spec, Nat.not_lt.mpr h]
  · intro n h; simp [_set_default_filter_spec, h]
  · intro n h; simp [_set_default_filter_spec, Nat.not_lt.mpr h]
  · refine ⟨fun perc => decide (([float32_eps, 1] : List ℚ).getD 0 0 ≤ perc)
        && decide (perc ≤ ([float32_eps, 1] : List ℚ).getD 1 0), ?_, ?_⟩
    · unfold _validate_filter_spec
      rw [if_neg (by simp), if_neg ?_]
      simp only [Bool.or_eq_true, List.any_eq_true, decide_eq_true_eq, float32_eps]
      rintro (⟨x, hx, hlt⟩ | ⟨x, hx, hlt⟩) <;>
        simp only [List.mem_cons, List.mem_singleton, List.not_mem_nil, or_false] at hx <;>
        rcases hx with rfl | rfl <;> norm_num at hlt
    · simp only [List.getD]
      norm_num [float32_eps]
  · refine ⟨fun perc => decide (([0, 1] : List ℚ).getD 0 0 ≤ perc)
        && decide (perc ≤ ([0, 1] : List ℚ).getD 1 0), ?_, ?_⟩
    · unfold _validate_filter_spec
      rw [if_neg (by simp), if_neg ?_]
      simp only [Bool.or_eq_true, List.any_eq_true, decide_eq_true_eq]
      rintro (⟨x, hx, hlt⟩ | ⟨x, hx, hlt⟩) <;>
        simp only [List.mem_cons, List.mem_singleton, List.not_mem_nil, or_false] at hx <;>
        rcases hx with rfl | rfl <;> norm_num at hlt
    · simp only [List.getD]
      norm_num

/-- Witness for C7 at concrete axis lengths 4 (below both thresholds) and 100
(above both). -/
theorem C7_default_filter_spec_witness :
    _set_default_filter_spec none 4 MAX_ROWS_DISPLAYABLE = [0, 1]
    ∧ _set_default_filter_spec none 100 MAX_COLS_DISPLAYABLE = [float32_eps, 1] :=
  ⟨C7_default_filter_spec.1 4 (by norm_num [MAX_ROWS_DISPLAYABLE]),
   C7_default_filter_spec.2.2.2.1 100 (by norm_num [MAX_COLS_DISPLAYABLE])⟩

/-- Mirrors the row-grouping entry of `blackholes` (base.py lines 159-177):
the table is first filtered by `freq_filter`; the grouping sequence is then
required to have exactly `num_rows_orig = data_in.shape[0]` elements, the
ORIGINAL pre-filter row count, and a ValueError is raised otherwise; on
success the grouping sequence itself is sliced by the row keep mask. -/
def blackholes_group_rows_check (data : Table) (row_spec col_spec : List ℚ)
    (group_rows_by : List String) : Except String (List String) := do
  let r ← freq_filter data row_spec col_spec
  let num_rows_orig := data.length
  if group_rows_by.length ≠ num_rows_orig then
    .error "Grouping variable for samples/rows must have num_rows_orig elements"
  else
    pure (mask_filter r.2.1 group_rows_by)

/-- Two-row, one-column table whose first row has its only cell missing; the
epsilon row filter keeps only that first row, so the post-filter row count
is 1 while the original row count is 2. -/
def twoRowTable : Table := [[none], [some "x"]]

/-- Counterexample to claim C5: on `twoRowTable` the epsilon row spec leaves a
single row, yet a grouping sequence of that post-filter length 1 is rejected,
because the source checks the membership length against the ORIGINAL row
count 2. -/
theorem C5_counterexample_post_filter_length :
    freq_filter twoRowTable [float32_eps, 1] [0, 1]
      = .ok ([[none]], [true, false], [true])
    ∧ blackholes_group_rows_check twoRowTable [float32_eps, 1] [0, 1] ["A"]
      = .error "Grouping variable for samples/rows must have num_rows_orig elements" := by
  have h : freq_filter twoRowTable [float32_eps, 1] [0, 1]
      = .ok ([[none]], [true, false], [true]) := by
    norm_num [freq_filter, _validate_filter_spec, row_ratios, col_ratios, row_counts, col_counts,
      cell_flag, isnull_row, countTrue, num_cols, twoRowTable, mask_filter, Function.comp,
      float32_eps, List.range_succ, Bind.bind, Except.bind, pure, Except.pure, List.singleton,
      Bool.and_eq_true, decide_eq_true_eq, decide_eq_false_iff_not, List.filterMap_cons,
      List.zip]
  refine ⟨h, ?_⟩
  simp only [blackholes_group_rows_check, Bind.bind, Except.bind]
  rw [h]
  simp [twoRowTable]

/-- Claim C5 as amended: whenever filtering itself succeeds, the row-grouping
call succeeds exactly when the membership sequence has the ORIGINAL pre-filter
row count; any other length, including the post-filter one when it differs,
is rejected with a ValueError. -/
theorem C5_group_length_checked_against_original :
    ∀ (data : Table) (row_spec col_spec : List ℚ) (g : List String),
      (freq_filter data row_spec col_spec).isOk = true →
      ((blackholes_group_rows_check data row_spec col_spec g).isOk = true
        ↔ g.length = data.length) := by
  intro data row_spec col_spec g hok
  cases hf : freq_filter data row_spec col_spec with
  | error e => rw [hf] at hok; simp [Except.isOk, Except.toBool] at hok
  | ok r =>
    by_cases hlen : g.length = data.length
    · simp [blackholes_group_rows_check, hf, Bind.bind, Except.bind, hlen, Except.isOk,
        Except.toBool, pure, Except.pure]
    · simp [blackholes_group_rows_check, hf, Bind.bind, Except.bind, hlen, Except.isOk,
        Except.toBool]

/-- Witness for C5 as amended: on `twoRowTable` with a membership sequence of
the original length 2, the grouping call succeeds. -/
theorem C5_group_length_witness :
    (blackholes_group_rows_check twoRowTable [float32_eps, 1] [0, 1] ["A", "B"]).isOk = true
    ∧ (["A", "B"] : List String).length = twoRowTable.length := by
  have hok : (freq_filter twoRowTable [float32_eps, 1] [0, 1]).isOk = true := by
    norm_num [freq_filter, _validate_filter_spec, row_ratios, col_ratios, row_counts, col_counts,
      cell_flag, isnull_row, countTrue, num_cols, twoRowTable, mask_filter, Function.comp,
      float32_eps, List.range_succ, Bind.bind, Except.bind, pure, Except.pure, List.singleton,
      Bool.and_eq_true, decide_eq_true_eq, decide_eq_false_iff_not, List.filterMap_cons,
      List.zip, Except.isOk, Except.toBool]
  exact ⟨(C5_group_length_checked_against_original twoRowTable [float32_eps, 1] [0, 1]
      ["A", "B"] hok).mpr (by decide), by decide⟩

/-- A dataframe for label resolution: ordered column names and the row values
(one string per column per row). -/
structure Frame where
  cols : List String
  rows : List (List String)

/-- A label spec as passed to `process_labels`: either a single name (a string,
possibly naming a column of the frame) or an explicit sequence. -/
inductive LabelSpec where
  | colRef (s : String)
  | seq (l : List String)
deriving DecidableEq

/-- Python `len(labels)`: the length of a string for a single name (strings are
sequences of characters in python), the length of the list otherwise. -/
def spec_len : LabelSpec → Nat
  | .colRef s => s.length
  | .seq l => l.length

/-- Python iteration over `labels` as a sequence: a string yields its
characters one by one, a list its elements. -/
def spec_elems : LabelSpec → List String
  | .colRef s => s.data.map (fun c => String.mk [c])
  | .seq l => l

/-- Python `labels in data` on a dataframe: membership in the column index;
a list is unhashable and never a member. -/
def in_frame (f : Frame) : LabelSpec → Bool
  | .colRef s => f.cols.contains s
  | .seq _ => false

/-- Python `data[labels]` for a column name: the values of that column, one
per ROW of the frame. -/
def frame_column (f : Frame) (s : String) : List String :=
  f.rows.map (fun r => r.getD (f.cols.indexOf s) "")

/-- The `default_prefix` argument of `process_labels`: blackholes passes the
literal string prefix for rows and `data_in.columns` (a sequence) for
columns. -/
inductive PrefSpec where
  | str (s : String)
  | seq (l : List String)

/-- Mirrors the branch structure of `process_labels` (base.py lines 497-518)
before the final string coercion: an in-table reference returns that column
(one value per row), otherwise a sequence of exactly `n` elements is accepted
verbatim, otherwise a ValueError; with no labels, a string prefix synthesizes
prefix0..prefix(n-1) and a sequence prefix of length `n` is used directly. -/
def raw_labels (f : Frame) (labels : Option LabelSpec) (n : Nat) (dp : PrefSpec) :
    Except String (List String) :=
  match labels with
  | some ls =>
    if in_frame f ls then
      match ls with
      | .colRef s => .ok (frame_column f s)
      | .seq l => .ok l
    else if spec_len ls = n then .ok (spec_elems ls)
    else .error "invalid input for labels!"
  | none =>
    match dp with
    | .str s => .ok ((List.range n).map (fun i => s ++ toString i))
    | .seq l =>
      if l.length = n then .ok l
      else .error "Invalid spec for obtaining labels!"

/-- Python `str.strip()`: drop whitespace characters from both ends. -/
def py_strip (s : String) : String :=
  String.mk (((s.data.dropWhile Char.isWhitespace).reverse.dropWhile
    Char.isWhitespace).reverse)

/-- Mirrors `process_labels` (base.py lines 497-523): the resolved labels with
every label coerced to a string and stripped of surrounding whitespace. -/
def process_labels (f : Frame) (labels : Option LabelSpec) (n : Nat) (dp : PrefSpec) :
    Except String (List String) :=
  (raw_labels f labels n dp).map (fun out => out.map (fun lbl => py_strip lbl))

/-- Frame with one column named a and two rows, used to refute the label
length invariant for column labeling. -/
def twoRowFrame : Frame := ⟨["a"], [["x"], ["y"]]⟩

/-- Counterexample to claim C3: resolving COLUMN labels (axis length 1) of
`twoRowFrame` through the in-table reference a returns one label per ROW,
two labels, not the axis length 1 — and no validation error is raised. -/
theorem C3_counterexample_column_ref_length :
    process_labels twoRowFrame (some (LabelSpec.colRef "a")) 1 (PrefSpec.seq ["a"])
      = .ok ["x", "y"]
    ∧ (["x", "y"] : List String).length ≠ 1 := by
  exact ⟨rfl, by decide⟩

/-- Claim C3 as amended: whenever `process_labels` succeeds, the result has
exactly the requested axis length, except in the in-table column-reference
branch, which returns one label per table row (so the invariant holds there
only when the axis length is the row count, as for row labeling); a supplied
spec that is neither an in-table reference nor of the requested length is
rejected with a ValueError. -/
theorem C3_label_length_invariant_amended :
    (∀ (f : Frame) (labels : Option LabelSpec) (n : Nat) (dp : PrefSpec) (out : List String),
      process_labels f labels n dp = .ok out →
        out.length = n
        ∨ ∃ s, labels = some (.colRef s) ∧ f.cols.contains s = true
            ∧ out.length = f.rows.length)
    ∧ (∀ (f : Frame) (ls : LabelSpec) (n : Nat) (dp : PrefSpec),
        in_frame f ls = false → spec_len ls ≠ n →
        ∃ e, process_labels f (some ls) n dp = .error e) := by
  constructor
  · intro f labels n dp out hout
    simp only [process_labels, Except.map] at hout
    cases hraw : raw_labels f labels n dp with
    | error e => rw [hraw] at hout; cases hout
    | ok raw =>
      rw [hraw] at hout
      cases hout
      simp only [List.length_map]
      match labels with
      | some (.colRef s) =>
        simp only [raw_labels] at hraw
        by_cases hin : in_frame f (.colRef s)
        · rw [if_pos hin] at hraw
          cases hraw
          exact Or.inr ⟨s, rfl, hin, by simp [frame_column]⟩
        · rw [if_neg hin] at hraw
          by_cases hlen : spec_len (LabelSpec.colRef s) = n
          · rw [if_pos hlen] at hraw
            cases hraw
            refine Or.inl ?_
            simpa [spec_elems, spec_len] using hlen
          · rw [if_neg hlen] at hraw; cases hraw
      | some (.seq l) =>
        simp only [raw_labels, in_frame, Bool.false_eq_true, if_false] at hraw
        by_cases hlen : spec_len (LabelSpec.seq l) = n
        · rw [if_pos hlen] at hraw
          cases hraw
          refine Or.inl ?_
          simpa [spec_elems, spec_len] using hlen
        · rw [if_neg hlen] at hraw; cases hraw
      | none =>
        cases dp with
        | str s =>
          simp only [raw_labels] at hraw
          cases hraw
          simp
        | seq l =>
          simp only [raw_labels] at hraw
          by_cases hlen : l.length = n
          · rw [if_pos hlen] at hraw; cases hraw; exact Or.inl hlen
          · rw [if_neg hlen] at hraw; cases hraw
  · intro f ls n dp hin hlen
    refine ⟨"invalid input for labels!", ?_⟩
    simp only [process_labels, raw_labels, hin, Bool.false_eq_true, if_false,
      if_neg hlen, Except.map]

/-- Witness for C3 as amended: an explicit two-element sequence resolves to
exactly two labels, and a name that is neither a column nor of the axis
length errors. -/
theorem C3_label_length_invariant_amended_witness :
    ((["u", "v"] : List String).length = 2
      ∨ ∃ s, (some (LabelSpec.seq ["u", "v"]) : Option LabelSpec) = some (.colRef s)
          ∧ twoRowFrame.cols.contains s = true
          ∧ (["u", "v"] : List String).length = twoRowFrame.rows.length)
    ∧ ∃ e, process_labels twoRowFrame (some (LabelSpec.colRef "zz")) 5 (PrefSpec.str "row")
        = .error e :=
  ⟨C3_label_length_invariant_amended.1 twoRowFrame (some (LabelSpec.seq ["u", "v"])) 2
      (PrefSpec.str "row") ["u", "v"] rfl,
   C3_label_length_invariant_amended.2 twoRowFrame (LabelSpec.colRef "zz") 5
      (PrefSpec.str "row") (by decide) (by decide)⟩

/-- Mirrors `check_freq_thresh_labels` (utils.py lines 48-59): the threshold
must satisfy 0 <= t < 1; for a positive threshold the returned label filter is
the STRICT comparison `freq > t`, otherwise the constant true filter. -/
def check_freq_thresh_labels (t : ℚ) : Except String (ℚ → Bool) :=
  if ¬ (0 ≤ t ∧ t < 1) then
    .error "freq_thresh_show_labels must be >=0 and < 1.0"
  else if 0 < t then
    .ok (fun freq => decide (t < freq))
  else
    .ok (fun _ => true)

/-- Mirrors the tick selection of `set_labels` (utils.py lines 24-27): when
the labels are nonempty, a filter is supplied and the metric has the same
length as the labels, exactly the (tick, label) pairs whose metric passes the
filter are kept — and when that selection is empty, the source unpacking
`ticks, labels = list(zip(*t_n_l))` raises a ValueError (not enough values to
unpack), modelled as an error result; in every other configuration all pairs
are kept unfiltered. -/
def set_labels_select (ticks : List Nat) (labels : List String) (metric : List ℚ)
    (func : Option (ℚ → Bool)) : Except String (List (Nat × String)) :=
  if 0 < labels.length then
    match func with
    | some f =>
      if metric.length = labels.length then
        let t_n_l := ((ticks.zip labels).zip metric).filterMap
          (fun p => if f p.2 then some p.1 else none)
        if t_n_l.isEmpty then .error "not enough values to unpack"
        else .ok t_n_l
      else .ok (ticks.zip labels)
    | none => .ok (ticks.zip labels)
  else .ok (ticks.zip labels)

/-- Mirrors the row-axis label policy of `blackholes` (base.py lines 270-278):
a positive `freq_thresh_show_labels` routes through the thresholded
`set_labels` call; otherwise all labels are shown when `show_all_labels` is
set or the axis fits the displayability maximum, and none are shown otherwise
(`remove_ticks_labels` calls `set_labels` with empty ticks and labels). -/
def blackholes_label_policy (thresh : ℚ) (show_all : Bool) (axis_len max_len : Nat)
    (ticks : List Nat) (labels : List String) (metric : List ℚ) :
    Except String (List (Nat × String)) := do
  let label_filter ← check_freq_thresh_labels thresh
  if 0 < thresh then
    set_labels_select ticks labels metric (some label_filter)
  else if show_all || decide (axis_len ≤ max_len) then
    set_labels_select ticks labels [] none
  else
    set_labels_select [] [] [] none

/-- With a positive threshold below 1 and an aligned metric, the policy either
returns exactly the strictly-exceeding ticks or errors when that selection is
empty. -/
theorem label_policy_core :
    ∀ (thresh : ℚ) (show_all : Bool) (axis_len max_len : Nat)
      (ticks : List Nat) (labels : List String) (metric : List ℚ),
      0 < thresh → thresh < 1 → metric.length = labels.length → 0 < labels.length →
      blackholes_label_policy thresh show_all axis_len max_len ticks labels metric
        = (if (((ticks.zip labels).zip metric).filterMap
              (fun p => if thresh < p.2 then some p.1 else none)).isEmpty
           then .error "not enough values to unpack"
           else .ok (((ticks.zip labels).zip metric).filterMap
              (fun p => if thresh < p.2 then some p.1 else none))) := by
  intro thresh show_all axis_len max_len ticks labels metric h0 h1 hm hlab
  have hval : check_freq_thresh_labels thresh
      = .ok (fun freq => decide (thresh < freq)) := by
    unfold check_freq_thresh_labels
    rw [if_neg (by push_neg; exact ⟨le_of_lt h0, h1⟩), if_pos h0]
  have hfil : ((ticks.zip labels).zip metric).filterMap
        (fun p => if decide (thresh < p.2) = true then some p.1 else none)
      = ((ticks.zip labels).zip metric).filterMap
        (fun p => if thresh < p.2 then some p.1 else none) := by
    refine List.filterMap_congr ?_
    intro p _
    by_cases hp : thresh < p.2
    · rw [if_pos hp, if_pos (decide_eq_true hp)]
    · rw [if_neg hp, if_neg (by simpa using hp)]
  simp only [blackholes_label_policy, Bind.bind, Except.bind, hval, if_pos h0,
    set_labels_select, if_pos hlab, if_pos hm]
  rw [hfil]

/-- Counterexample to claim C8: with the nonzero threshold 1/2 strictly above
every displayed frequency, the program does not retain the empty set of
labels — the empty selection crashes the unpacking inside `set_labels` with a
ValueError, so the policy call errors rather than returning the empty
retained set the claim predicts. -/
theorem C8_counterexample_empty_selection_crash :
    blackholes_label_policy (1/2) false 3 60 [0, 1, 2] ["a", "b", "c"] [0, 1/20, 1/10]
      = .error "not enough values to unpack"
    ∧ (([0, 1, 2].zip ["a", "b", "c"]).zip [0, 1/20, 1/10]).filterMap
        (fun p => if (1/2 : ℚ) < p.2 then some p.1 else none) = []
    ∧ (Except.error "not enough values to unpack"
        : Except String (List (Nat × String))) ≠ .ok [] := by
  have hempty : (([0, 1, 2].zip ["a", "b", "c"]).zip [0, 1/20, 1/10]).filterMap
      (fun p => if (1/2 : ℚ) < p.2 then some p.1 else none) = [] := by
    norm_num [List.zip, List.filterMap_cons]
  refine ⟨?_, hempty, by simp⟩
  rw [label_policy_core (1/2) false 3 60 [0, 1, 2] ["a", "b", "c"] [0, 1/20, 1/10]
      (by norm_num) (by norm_num) rfl (by norm_num), hempty]
  rfl

/-- Claim C8 as amended: with a positive threshold below 1 and a metric of the
labels length, thresholding takes precedence over the show-all flag and the
retained ticks are exactly those whose metric STRICTLY exceeds the threshold,
whenever at least one does; when none does and labels are present the call
fails with the unpacking ValueError instead of rendering zero labels. On
frequencies 0, 1/20, 1/10 with threshold 1/20 exactly the third tick
survives. -/
theorem C8_label_policy_amended :
    (∀ (thresh : ℚ) (show_all : Bool) (axis_len max_len : Nat)
        (ticks : List Nat) (labels : List String) (metric : List ℚ),
      0 < thresh → thresh < 1 → metric.length = labels.length →
      ((ticks.zip labels).zip metric).filterMap
          (fun p => if thresh < p.2 then some p.1 else none) ≠ [] →
      blackholes_label_policy thresh show_all axis_len max_len ticks labels metric
        = .ok (((ticks.zip labels).zip metric).filterMap
            (fun p => if thresh < p.2 then some p.1 else none)))
    ∧ (∀ (thresh : ℚ) (show_all : Bool) (axis_len max_len : Nat)
        (ticks : List Nat) (labels : List String) (metric : List ℚ),
      0 < thresh → thresh < 1 → metric.length = labels.length → labels ≠ [] →
      ((ticks.zip labels).zip metric).filterMap
          (fun p => if thresh < p.2 then some p.1 else none) = [] →
      blackholes_label_policy thresh show_all axis_len max_len ticks labels metric
        = .error "not enough values to unpack")
    ∧ blackholes_label_policy (1/20) false 3 60 [0, 1, 2] ["a", "b", "c"]
        [0, 1/20, 1/10] = .ok [(2, "c")] := by
  have ok_branch : ∀ (thresh : ℚ) (show_all : Bool) (axis_len max_len : Nat)
      (ticks : List Nat) (labels : List String) (metric : List ℚ),
      0 < thresh → thresh < 1 → metric.length = labels.length →
      ((ticks.zip labels).zip metric).filterMap
          (fun p => if thresh < p.2 then some p.1 else none) ≠ [] →
      blackholes_label_policy thresh show_all axis_len max_len ticks labels metric
        = .ok (((ticks.zip labels).zip metric).filterMap
            (fun p => if thresh < p.2 then some p.1 else none)) := by
    intro thresh show_all axis_len max_len ticks labels metric h0 h1 hm hne
    have hlab : 0 < labels.length := by
      rcases labels with _ | ⟨x, xs⟩
      · exact absurd (by cases ticks <;> simp [List.zip]) hne
      · simp
    rw [label_policy_core thresh show_all axis_len max_len ticks labels metric h0 h1 hm hlab,
      if_neg (by simpa [List.isEmpty_iff] using hne)]
  refine ⟨ok_branch, ?_, ?_⟩
  · intro thresh show_all axis_len max_len ticks labels metric h0 h1 hm hlabne hempty
    have hlab : 0 < labels.length := by
      rcases labels with _ | ⟨x, xs⟩
      · exact absurd rfl hlabne
      · simp
    rw [label_policy_core thresh show_all axis_len max_len ticks labels metric h0 h1 hm hlab,
      hempty]
    rfl
  · have hkept : (([0, 1, 2].zip ["a", "b", "c"]).zip [0, 1/20, 1/10]).filterMap
        (fun p => if (1/20 : ℚ) < p.2 then some p.1 else none) = [(2, "c")] := by
      norm_num [List.zip, List.filterMap_cons]
    rw [ok_branch (1/20) false 3 60 [0, 1, 2] ["a", "b", "c"] [0, 1/20, 1/10]
        (by norm_num) (by norm_num) rfl (by rw [hkept]; simp), hkept]

/-- Witness for C8 as amended at the concrete boundary scenario. -/
theorem C8_label_policy_amended_witness :
    blackholes_label_policy (1/20) true 100 60 [0, 1, 2] ["a", "b", "c"] [0, 1/20, 1/10]
      = .ok ((([0, 1, 2].zip ["a", "b", "c"]).zip [0, 1/20, 1/10]).filterMap
          (fun p => if (1/20 : ℚ) < p.2 then some p.1 else none)) :=
  C8_label_policy_amended.1 (1/20) true 100 60 [0, 1, 2] ["a", "b", "c"] [0, 1/20, 1/10]
    (by norm_num) (by norm_num) rfl
    (by norm_num [List.zip, List.filterMap_cons])

/-- Mirrors the frequency-strip normalization of `blackholes` (base.py lines
217-222): each count vector is divided by its own total. The division is an
IEEE float division in the source, so a zero total makes every entry the
undefined 0/0 (NaN) without raising; the model returns `none` for every entry
exactly in that case. This step runs unconditionally, before and independent
of any grouping option. -/
def normalize_freq (counts : List Nat) : List (Option ℚ) :=
  counts.map (fun (c : Nat) =>
    if counts.sum = 0 then none else some ((c : ℚ) / (counts.sum : ℚ)))

/-- Claim C10: on a table whose cells are all present, the row-wise and
column-wise strip totals are zero, so every displayed frequency value is the
undefined 0/0 (modelled `none`), for every row and every column, and the
computation returns normally. -/
theorem C10_all_present_normalization_undefined :
    ∀ (m : List (List Bool)) (ncols : Nat),
      (∀ row ∈ m, ∀ b ∈ row, b = false) →
      (row_counts m).sum = 0
      ∧ normalize_freq (row_counts m) = List.replicate m.length none
      ∧ (col_counts m ncols).sum = 0
      ∧ normalize_freq (col_counts m ncols) = List.replicate ncols none := by
  intro m ncols hall
  have hgetD : ∀ (r : List Bool), (∀ b ∈ r, b = false) → ∀ c, r.getD c false = false := by
    intro r
    induction r with
    | nil => intro _ c; cases c <;> rfl
    | cons a t ih =>
      intro h c
      cases c with
      | zero => exact h a (by simp)
      | succ c => exact ih (fun b hb => h b (by simp [hb])) c
  have hrow0 : ∀ x ∈ row_counts m, x = 0 := by
    intro x hx
    obtain ⟨r, hr, rfl⟩ := List.mem_map.mp hx
    simp only [countTrue, List.count_eq_zero]
    intro htrue
    exact absurd (hall r hr true htrue) (by simp)
  have hcol0 : ∀ x ∈ col_counts m ncols, x = 0 := by
    intro x hx
    obtain ⟨c, _, rfl⟩ := List.mem_map.mp hx
    simp only [countTrue, List.count_eq_zero]
    intro htrue
    obtain ⟨r, hr, hrc⟩ := List.mem_map.mp htrue
    exact absurd (hgetD r (hall r hr) c ▸ hrc) (by simp)
  have hrsum : (row_counts m).sum = 0 := List.sum_eq_zero hrow0
  have hcsum : (col_counts m ncols).sum = 0 := List.sum_eq_zero hcol0
  have hmem : ∀ (counts : List Nat), counts.sum = 0 →
      ∀ b ∈ normalize_freq counts, b = none := by
    intro counts hsum b hb
    simp only [normalize_freq, List.mem_map] at hb
    obtain ⟨c, _, rfl⟩ := hb
    rw [if_pos hsum]
  refine ⟨hrsum, ?_, hcsum, ?_⟩
  · have hlen : (normalize_freq (row_counts m)).length = m.length := by
      rw [show (normalize_freq (row_counts m)).length = (row_counts m).length from
            List.length_map _ _,
          show (row_counts m).length = m.length from List.length_map _ _]
    have hrep := List.eq_replicate_length.mpr (hmem _ hrsum)
    rw [hlen] at hrep
    exact hrep
  · have hlen : (normalize_freq (col_counts m ncols)).length = ncols := by
      rw [show (normalize_freq (col_counts m ncols)).length = (col_counts m ncols).length from
            List.length_map _ _,
          show (col_counts m ncols).length = (List.range ncols).length from List.length_map _ _,
          List.length_range]
    have hrep := List.eq_replicate_length.mpr (hmem _ hcsum)
    rw [hlen] at hrep
    exact hrep

/-- Witness for C10 at a two-by-two table with every cell present. -/
theorem C10_all_present_normalization_witness :
    (row_counts [[false, false], [false, false]]).sum = 0
    ∧ normalize_freq (row_counts [[false, false], [false, false]])
        = List.replicate ([[false, false], [false, false]] : List (List Bool)).length none
    ∧ (col_counts [[false, false], [false, false]] 2).sum = 0
    ∧ normalize_freq (col_counts [[false, false], [false, false]] 2)
        = List.replicate 2 none :=
  C10_all_present_normalization_undefined [[false, false], [false, false]] 2 (by decide)

/-- Mirrors `freq[np.flatnonzero(group_idx==gg)].sum()` inside
`decorate_row_groups_with_total_freq` (base.py lines 403-404) and its column
twin (lines 428-429): the summed frequency of the members of group `g`. -/
def grp_freq_sum (group_idx : List Nat) (freq : List ℚ) (g : Nat) : ℚ :=
  (((group_idx.zip freq).filter (fun p => p.1 == g)).map Prod.snd).sum

/-- Mirrors the percentage annotations of the group decoration loop (base.py
lines 402-407 and 427-431): for each group index below `num_groups`, the value
`100 * this_grp_freq / total_missingness` with `total_missingness` the sum of
all frequencies. -/
def group_percentages (group_idx : List Nat) (freq : List ℚ) (num_groups : Nat) : List ℚ :=
  (List.range num_groups).map (fun g => 100 * grp_freq_sum group_idx freq g / freq.sum)

/-- Summing a pointwise sum of two functions over a list splits. -/
theorem sum_map_add_split {β : Type} (l : List β) (f g : β → ℚ) :
    (l.map (fun x => f x + g x)).sum = (l.map f).sum + (l.map g).sum := by
  induction l with
  | nil => simp
  | cons a l ih => simp only [List.map_cons, List.sum_cons, ih]; ring

/-- Summing an indicator of a single index below the range bound yields its
value. -/
theorem sum_range_indicator (G k : Nat) (c : ℚ) (hk : k < G) :
    ((List.range G).map (fun g => if g = k then c else 0)).sum = c := by
  induction G with
  | zero => omega
  | succ G ih =>
    rw [List.range_succ, List.map_append, List.sum_append]
    by_cases h : k = G
    · subst h
      have hz : ((List.range k).map (fun g => if g = k then c else 0)).sum = 0 := by
        refine List.sum_eq_zero ?_
        intro x hx
        obtain ⟨g, hg, rfl⟩ := List.mem_map.mp hx
        rw [if_neg (Nat.ne_of_lt (List.mem_range.mp hg))]
      simp [hz]
    · have hk' : k < G := by omega
      rw [ih hk']
      simp [Ne.symm h]

/-- The group sums over all group indices below `G` partition the total: every
pair contributes to exactly the group of its first component. -/
theorem sum_grp_partition (l : List (Nat × ℚ)) (G : Nat) (h : ∀ p ∈ l, p.1 < G) :
    ((List.range G).map
      (fun g => ((l.filter (fun p => p.1 == g)).map Prod.snd).sum)).sum
    = (l.map Prod.snd).sum := by
  induction l with
  | nil => simp
  | cons p l ih =>
    have hp : p.1 < G := h p (List.mem_cons_self p l)
    have key : ∀ g, ((List.filter (fun q => q.1 == g) (p :: l)).map Prod.snd).sum
        = (if g = p.1 then p.2 else 0)
          + ((List.filter (fun q => q.1 == g) l).map Prod.snd).sum := by
      intro g
      rw [List.filter_cons]
      by_cases hg : p.1 = g
      · subst hg
        simp
      · rw [if_neg (by simpa using hg), if_neg (fun hgp => hg hgp.symm)]
        simp
    rw [List.map_congr_left (fun g _ => key g), sum_map_add_split,
      sum_range_indicator G p.1 p.2 hp, ih (fun q hq => h q (List.mem_cons_of_mem p hq))]
    simp

/-- Claim C9: when the total summed frequency is nonzero and every item's
group index lies below the group count, the per-group percentage annotations
100 * group_sum / total sum exactly to 100 in exact arithmetic, because the
groups partition the items. -/
theorem C9_group_percentages_sum_to_100 :
    ∀ (group_idx : List Nat) (freq : List ℚ) (num_groups : Nat),
      group_idx.length = freq.length →
      (∀ i ∈ group_idx, i < num_groups) →
      freq.sum ≠ 0 →
      (group_percentages group_idx freq num_groups).sum = 100 := by
  intro group_idx freq G hlen hin hT
  have hzip : ∀ p ∈ group_idx.zip freq, p.1 < G := by
    intro p hp
    obtain ⟨h1, _⟩ := List.of_mem_zip (a := p.1) (b := p.2) (by simpa using hp)
    exact hin p.1 h1
  have hsnd : (group_idx.zip freq).map Prod.snd = freq :=
    List.map_snd_zip group_idx freq (le_of_eq hlen.symm)
  have htot : ((List.range G).map (fun g => grp_freq_sum group_idx freq g)).sum = freq.sum := by
    unfold grp_freq_sum
    rw [sum_grp_partition (group_idx.zip freq) G hzip, hsnd]
  unfold group_percentages
  have hpt : ∀ g ∈ List.range G,
      100 * grp_freq_sum group_idx freq g / freq.sum
        = grp_freq_sum group_idx freq g * (100 / freq.sum) := by
    intro g _
    field_simp
    ring
  rw [List.map_congr_left hpt, List.sum_map_mul_right, htot]
  field_simp

/-- Witness for C9: two items in groups 0 and 1 with frequencies 1/4 and 3/4
have annotations summing to 100. -/
theorem C9_group_percentages_witness :
    (group_percentages [0, 1] [1/4, 3/4] 2).sum = 100 :=
  C9_group_percentages_sum_to_100 [0, 1] [1/4, 3/4] 2 rfl
    (by intro i hi; fin_cases hi <;> omega) (by norm_num)

/-- Group key of item `i`: membership values are short strings in the source;
single-character group labels are embedded as characters, ordered as numpy
orders them (lexicographically, which for single characters is the code
order). -/
def akey (ks : List Char) (i : Nat) : Char := ks.getD i ' '

/-- The stable comparison on indices: by key value, with ties resolved by the
original index. The insertion-sort phase of the numpy default sort (see
`np_argsort` below for the full port) arranges indices in exactly this order,
because it compares only keys and inserts each new, larger index after all
equal keys. -/
def alex (ks : List Char) (i j : Nat) : Prop :=
  akey ks i < akey ks j ∨ (akey ks i = akey ks j ∧ i ≤ j)

instance (ks : List Char) : DecidableRel (alex ks) := fun i j => by
  unfold alex; infer_instance

instance (ks : List Char) : IsTotal Nat (alex ks) := by
  constructor
  intro i j
  rcases lt_trichotomy (akey ks i) (akey ks j) with h | h | h
  · exact Or.inl (Or.inl h)
  · rcases Nat.le_total i j with hle | hle
    · exact Or.inl (Or.inr ⟨h, hle⟩)
    · exact Or.inr (Or.inr ⟨h.symm, hle⟩)
  · exact Or.inr (Or.inl h)

instance (ks : List Char) : IsTrans Nat (alex ks) := by
  constructor
  intro a b c hab hbc
  rcases hab with hab | ⟨hab, hab2⟩ <;> rcases hbc with hbc | ⟨hbc, hbc2⟩
  · exact Or.inl (hab.trans hbc)
  · exact Or.inl (hbc ▸ hab)
  · exact Or.inl (hab ▸ hbc)
  · exact Or.inr ⟨hab.trans hbc, hab2.trans hbc2⟩

/-- The stable reference order for `np.argsort(group_rows_by)` (base.py line
180): the permutation of 0..n-1 sorted by (key, original index). The faithful
port `np_argsort` below coincides with it exactly when the whole array goes
through the insertion-sort path of the numpy default sort, i.e. for arrays of
at most 16 elements (proved in `np_argsort_eq_argsort_of_small`), and can
deviate on ties beyond that. -/
def argsort (ks : List Char) : List Nat :=
  List.insertionSort (alex ks) (List.range ks.length)

/-- Numpy fancy indexing `arr[idx]` along the first axis. -/
def fancy_index {α : Type} (l : List α) (idx : List Nat) : List α :=
  idx.filterMap (fun i => l[i]?)

/-- Mirrors `reorder_rows` (base.py lines 382-384): both the cell mask and the
row labels are fancy-indexed by the sorted index order. -/
def reorder_rows {α β : Type} (cf : List α) (labels : List β) (row_group_index : List Nat) :
    List α × List β :=
  (fancy_index cf row_group_index, fancy_index labels row_group_index)

/-- A sort-order comparison yields a key inequality. -/
theorem alex_key_le {ks : List Char} {a b : Nat} (h : alex ks a b) :
    akey ks a ≤ akey ks b :=
  h.elim le_of_lt (fun h2 => le_of_eq h2.1)


/-- In the stable reference order, any item lying between two equal-key
positions carries that same key. -/
theorem argsort_contiguity :
    ∀ (ks : List Char) (p q r : Fin (argsort ks).length),
      p ≤ q → q ≤ r →
      akey ks ((argsort ks).get p) = akey ks ((argsort ks).get r) →
      akey ks ((argsort ks).get q) = akey ks ((argsort ks).get p) := by
  intro ks p q r hpq hqr hpr
  have hs : List.Sorted (alex ks) (argsort ks) := List.sorted_insertionSort _ _
  have h1 : akey ks ((argsort ks).get p) ≤ akey ks ((argsort ks).get q) := by
    rcases eq_or_lt_of_le hpq with h | h
    · rw [h]
    · exact alex_key_le (hs.rel_get_of_lt h)
  have h2 : akey ks ((argsort ks).get q) ≤ akey ks ((argsort ks).get r) := by
    rcases eq_or_lt_of_le hqr with h | h
    · rw [h]
    · exact alex_key_le (hs.rel_get_of_lt h)
  exact le_antisymm (h2.trans (le_of_eq hpr.symm)) h1

/-- In the stable reference order, equal-key items occur in ascending original
index. -/
theorem argsort_stability :
    ∀ (ks : List Char) (i j : Nat) (p q : Fin (argsort ks).length),
      i < j → akey ks i = akey ks j →
      (argsort ks).get p = i → (argsort ks).get q = j → p < q := by
  intro ks i j p q hij hkey hp hq
  rcases lt_trichotomy p q with h | h | h
  · exact h
  · exfalso
    rw [h, hq] at hp
    omega
  · exfalso
    have hrel := (List.sorted_insertionSort (alex ks) (List.range ks.length)).rel_get_of_lt h
    rw [show (List.insertionSort (alex ks) (List.range ks.length)).get q
          = (argsort ks).get q from rfl, hq] at hrel
    rw [show (List.insertionSort (alex ks) (List.range ks.length)).get p
          = (argsort ks).get p from rfl, hp] at hrel
    rcases hrel with hlt | ⟨_, hle⟩
    · rw [hkey] at hlt
      exact lt_irrefl _ hlt
    · omega

instance (ks : List Char) : IsAntisymm Nat (alex ks) := by
  constructor
  intro a b hab hba
  rcases hab with hab | ⟨hab, hab2⟩ <;> rcases hba with hba | ⟨hba, hba2⟩
  · exact absurd (hab.trans hba) (lt_irrefl _)
  · exact absurd (hba ▸ hab) (lt_irrefl _)
  · exact absurd (hab ▸ hba) (lt_irrefl _)
  · exact Nat.le_antisymm hab2 hba2

/-- Swap of two positions of the index array, `INTP_SWAP(*pi, *pj)` of the
numpy sort (out-of-range positions leave the list unchanged, as they are
never produced by the loops). -/
def lswap (a : List Nat) (i j : Nat) : List Nat :=
  let x := a.getD i 0
  let y := a.getD j 0
  (a.set i y).set j x

/-- Key of the index stored at position `i` of the index array, `v[a[i]]`. -/
def keyAt (v : List Char) (a : List Nat) (i : Nat) : Char := akey v (a.getD i 0)

/-- The scan `do ++pi; while (LT(v[*pi], vp))` of the numpy partition loop:
advance to the next position, then keep advancing while the key there is
strictly below the pivot (fuel bounds the scan; the pivot sentinel stops it
in every reachable state). -/
def next_up (v : List Char) (vp : Char) (a : List Nat) : Nat → Nat → Nat
  | 0, pi => pi + 1
  | fuel+1, pi => if keyAt v a (pi+1) < vp then next_up v vp a fuel (pi+1) else pi + 1

/-- The scan `do --pj; while (LT(vp, v[*pj]))` of the numpy partition loop. -/
def next_down (v : List Char) (vp : Char) (a : List Nat) : Nat → Nat → Nat
  | 0, pj => pj - 1
  | fuel+1, pj => if vp < keyAt v a (pj-1) then next_down v vp a fuel (pj-1) else pj - 1

/-- The inner partition exchange loop of the numpy quicksort: scan up, scan
down, stop when the scans cross (returning the crossing position), else swap
and continue. -/
def part_loop (v : List Char) (vp : Char) : Nat → List Nat → Nat → Nat → List Nat × Nat
  | 0, a, pi, _ => (a, pi)
  | fuel+1, a, pi, pj =>
    let pi2 := next_up v vp a a.length pi
    let pj2 := next_down v vp a a.length pj
    if pj2 ≤ pi2 then (a, pi2)
    else part_loop v vp fuel (lswap a pi2 pj2) pi2 pj2

/-- One partition step of the numpy argsort quicksort (aquicksort of
numpy npysort/quicksort.c.src) on the segment pl..pr of the index array:
median-of-three pivot selection with its three conditional swaps, pivot
stashed at pr-1, the exchange loop, and the final swap placing the pivot at
the crossing position, which is returned. -/
def np_partition (v : List Char) (a : List Nat) (pl pr : Nat) : List Nat × Nat :=
  let pm := pl + (pr - pl) / 2
  let a1 := if keyAt v a pm < keyAt v a pl then lswap a pm pl else a
  let a2 := if keyAt v a1 pr < keyAt v a1 pm then lswap a1 pr pm else a1
  let a3 := if keyAt v a2 pm < keyAt v a2 pl then lswap a2 pm pl else a2
  let vp := keyAt v a3 pm
  let a4 := lswap a3 pm (pr - 1)
  let pp := part_loop v vp (pr - pl + 1) a4 pl (pr - 1)
  (lswap pp.1 pp.2 (pr - 1), pp.2)

/-- One step of the insertion phase of the numpy sort, on the REVERSED sorted
prefix: `vi = *pi; while (pj > pl && LT(vp, v[*pk])) shift; *pj = vi` — walk
left from the right end of the prefix while the new key is strictly below the
key there, and drop the new index in; ties are passed over, keeping original
order. The reversed-list accumulator is the in-place right-to-left shift of
the source. -/
def shift_ins_rev (v : List Char) (vi : Nat) : List Nat → List Nat
  | [] => [vi]
  | x :: xs => if akey v vi < akey v x then x :: shift_ins_rev v vi xs else vi :: x :: xs

/-- The insertion-sort phase of the numpy sort on one segment, processing
positions left to right and inserting each into the sorted prefix. -/
def np_insertion (v : List Char) (l : List Nat) : List Nat :=
  (l.foldl (fun racc vi => shift_ins_rev v vi racc) []).reverse

/-- The segment pl..pr of the index array. -/
def seg_slice (a : List Nat) (pl pr : Nat) : List Nat := (a.drop pl).take (pr + 1 - pl)

/-- Replace the segment pl..pr of the index array. -/
def seg_splice (a : List Nat) (pl pr : Nat) (seg : List Nat) : List Nat :=
  a.take pl ++ seg ++ a.drop (pr + 1)

/-- The recursion of the numpy argsort quicksort: partition while the segment
holds more than SMALL_QUICKSORT = 15 pointer gaps, then insertion-sort the
small segments in place. The explicit segment stack of the C code is rendered
as recursion on the two disjoint sub-segments, and the depth-limited heapsort
fallback is not modelled: with fuel set to the array length it is unreachable
for every evaluation performed here (the 18-element run partitions exactly
once). -/
def np_quicksort (v : List Char) : Nat → List Nat → Nat → Nat → List Nat
  | 0, a, _, _ => a
  | fuel+1, a, pl, pr =>
    if 15 < pr - pl then
      let pp := np_partition v a pl pr
      let a3 := np_quicksort v fuel pp.1 pl (pp.2 - 1)
      np_quicksort v fuel a3 (pp.2 + 1) pr
    else
      seg_splice a pl pr (np_insertion v (seg_slice a pl pr))

/-- Mirrors `row_sort_idx = np.argsort(group_rows_by)` (base.py line 180):
the faithful port of the numpy default argsort (aquicksort), operating on the
initial index array 0..n-1. -/
def np_argsort (ks : List Char) : List Nat :=
  if ks.length = 0 then [] else
    np_quicksort ks ks.length (List.range ks.length) 0 (ks.length - 1)

/-- The shift-insert step is a permutation: it places the new index somewhere
in the prefix. -/
theorem shift_ins_rev_perm (v : List Char) (vi : Nat) :
    ∀ rpre : List Nat, List.Perm (shift_ins_rev v vi rpre) (vi :: rpre) := by
  intro rpre
  induction rpre with
  | nil => exact List.Perm.refl _
  | cons x xs ih =>
    unfold shift_ins_rev
    by_cases h : akey v vi < akey v x
    · rw [if_pos h]
      exact (ih.cons x).trans (List.Perm.swap vi x xs)
    · rw [if_neg h]

/-- The shift-insert step preserves sortedness of the prefix (read in array
order, i.e. reversed accumulator order) when the inserted index is larger
than every index already present. -/
theorem shift_ins_rev_sorted (v : List Char) (vi : Nat) :
    ∀ rpre : List Nat, List.Sorted (alex v) rpre.reverse →
      (∀ x ∈ rpre, x < vi) →
      List.Sorted (alex v) (shift_ins_rev v vi rpre).reverse := by
  intro rpre
  induction rpre with
  | nil =>
    intro _ _
    simp [shift_ins_rev]
  | cons x xs ih =>
    intro hs hlt
    rw [List.reverse_cons, List.Sorted, List.pairwise_append] at hs
    obtain ⟨hxs, _, hrel⟩ := hs
    unfold shift_ins_rev
    by_cases h : akey v vi < akey v x
    · rw [if_pos h, List.reverse_cons, List.Sorted, List.pairwise_append]
      refine ⟨ih hxs (fun y hy => hlt y (List.mem_cons_of_mem x hy)), List.sorted_singleton x, ?_⟩
      intro a ha b hb
      rw [List.mem_singleton] at hb
      rw [hb]
      have ha2 : a ∈ vi :: xs := by
        have := (shift_ins_rev_perm v vi xs).mem_iff (a := a)
        rw [← this]
        exact (List.mem_reverse).mp ha
      rcases List.mem_cons.mp ha2 with rfl | ha3
      · exact Or.inl h
      · exact hrel a ((List.mem_reverse).mpr ha3) x (List.mem_singleton_self x)
    · rw [if_neg h, List.reverse_cons, List.reverse_cons, List.append_assoc,
        List.Sorted, List.pairwise_append]
      refine ⟨hxs, ?_, ?_⟩
      · have hxvi : alex v x vi := by
          rcases lt_or_eq_of_le (not_lt.mp h) with hlt2 | heq
          · exact Or.inl hlt2
          · exact Or.inr ⟨heq, le_of_lt (hlt x (List.mem_cons_self x xs))⟩
        simp [List.Sorted, hxvi]
      · intro a ha b hb
        have hax : alex v a x := hrel a ha x (List.mem_singleton_self x)
        have hb2 : b = x ∨ b = vi := by simpa using hb
        have hxvi : alex v x vi := by
          rcases lt_or_eq_of_le (not_lt.mp h) with hlt2 | heq
          · exact Or.inl hlt2
          · exact Or.inr ⟨heq, le_of_lt (hlt x (List.mem_cons_self x xs))⟩
        rcases hb2 with hbx | hbvi
        · rw [hbx]
          exact hax
        · rw [hbvi]
          exact IsTrans.trans a x vi hax hxvi

/-- The insertion phase permutes: folding the shift-insert over a list yields
a permutation of the accumulator joined with the list. -/
theorem foldl_shift_perm (v : List Char) :
    ∀ (l racc : List Nat),
      List.Perm (l.foldl (fun r vi => shift_ins_rev v vi r) racc) (racc ++ l) := by
  intro l
  induction l with
  | nil =>
    intro racc
    simp
  | cons a l ih =>
    intro racc
    have h1 := ih (shift_ins_rev v a racc)
    have h2 := ((shift_ins_rev_perm v a racc).append_right l).trans List.perm_middle.symm
    exact h1.trans h2

/-- The insertion phase sorts: folding the shift-insert of strictly increasing
indices over a sorted reversed accumulator keeps it sorted. -/
theorem foldl_shift_sorted (v : List Char) :
    ∀ (l racc : List Nat),
      List.Sorted (alex v) racc.reverse →
      (∀ x ∈ racc, ∀ y ∈ l, x < y) →
      List.Pairwise (· < ·) l →
      List.Sorted (alex v)
        ((l.foldl (fun r vi => shift_ins_rev v vi r) racc).reverse) := by
  intro l
  induction l with
  | nil =>
    intro racc hs _ _
    exact hs
  | cons a l ih =>
    intro racc hs hcross hpair
    refine ih (shift_ins_rev v a racc) ?_ ?_ hpair.of_cons
    · exact shift_ins_rev_sorted v a racc hs
        (fun x hx => hcross x hx a (List.mem_cons_self a l))
    · intro x hx y hy
      have hx2 : x ∈ a :: racc := ((shift_ins_rev_perm v a racc).mem_iff).mp hx
      rcases List.mem_cons.mp hx2 with rfl | hx3
      · exact List.rel_of_pairwise_cons hpair hy
      · exact hcross x hx3 y (List.mem_cons_of_mem a hy)

/-- The numpy insertion phase is a permutation of its input segment. -/
theorem np_insertion_perm (v : List Char) (l : List Nat) :
    List.Perm (np_insertion v l) l := by
  unfold np_insertion
  exact ((l.foldl (fun r vi => shift_ins_rev v vi r) []).reverse_perm).trans
    (by simpa using foldl_shift_perm v l [])

/-- The numpy insertion phase sorts strictly increasing indices into the
stable (key, original index) order. -/
theorem np_insertion_sorted (v : List Char) (l : List Nat)
    (hpair : List.Pairwise (· < ·) l) :
    List.Sorted (alex v) (np_insertion v l) :=
  foldl_shift_sorted v l [] (by simp) (by simp) hpair

/-- On the full index range, the numpy insertion phase produces exactly the
stable reference order: both are sorted permutations of the range under the
antisymmetric total order alex. -/
theorem np_insertion_range_eq_argsort (ks : List Char) :
    np_insertion ks (List.range ks.length) = argsort ks := by
  have hperm : List.Perm (np_insertion ks (List.range ks.length)) (argsort ks) :=
    (np_insertion_perm ks (List.range ks.length)).trans
      (List.perm_insertionSort (alex ks) (List.range ks.length)).symm
  have hs1 : List.Sorted (alex ks) (np_insertion ks (List.range ks.length)) :=
    np_insertion_sorted ks (List.range ks.length) (List.pairwise_lt_range ks.length)
  have hs2 : List.Sorted (alex ks) (argsort ks) :=
    List.sorted_insertionSort (alex ks) (List.range ks.length)
  exact List.eq_of_perm_of_sorted hperm hs1 hs2

/-- The numpy default argsort coincides with the stable reference order for
every array of at most 16 elements, where it runs its insertion-sort path. -/
theorem np_argsort_eq_argsort_of_small (ks : List Char) (h16 : ks.length ≤ 16) :
    np_argsort ks = argsort ks := by
  unfold np_argsort
  by_cases h0 : ks.length = 0
  · rw [if_pos h0]
    unfold argsort
    rw [h0]
    rfl
  · rw [if_neg h0]
    obtain ⟨n, hn⟩ : ∃ n, ks.length = n + 1 := ⟨ks.length - 1, by omega⟩
    rw [hn]
    have hsmall : ¬ 15 < (n + 1 - 1) - 0 := by omega
    unfold np_quicksort
    rw [if_neg hsmall]
    have hslice : seg_slice (List.range (n + 1)) 0 ((n + 1) - 1) = List.range (n + 1) := by
      unfold seg_slice
      rw [List.drop_zero]
      rw [show (n + 1 - 1) + 1 - 0 = n + 1 from by omega]
      exact List.take_of_length_le (by rw [List.length_range])
    have hsplice : ∀ seg, seg_splice (List.range (n + 1)) 0 ((n + 1) - 1) seg = seg := by
      intro seg
      unfold seg_splice
      rw [List.take_zero, show ((n + 1) - 1) + 1 = (List.range (n + 1)).length from by
        rw [List.length_range]; omega]
      rw [List.drop_length]
      simp
    rw [hslice, hsplice]
    rw [show List.range (n + 1) = List.range ks.length from by rw [hn]]
    exact np_insertion_range_eq_argsort ks

/-- An 18-element membership, one B ahead of seventeen As, long enough to
drive the numpy default sort through a partition pass. -/
def k18 : List Char := 'B' :: List.replicate 17 'A'

/-- Counterexample to claim C4: on an 18-element membership the numpy default
argsort is NOT stable: original rows 9 and 15 both belong to group A with 9
before 15, yet after the sort 15 precedes 9 (the partition pass reverses runs
of ties), and the produced order differs from the stable reference order; the
keys do still come out ascending, so same-group items remain contiguous
here. -/
theorem C4_counterexample_unstable_beyond_cutoff :
    np_argsort k18 = [8, 15, 14, 13, 12, 11, 10, 9, 17, 7, 6, 5, 4, 3, 2, 1, 16, 0]
    ∧ (9 : Nat) < 15
    ∧ akey k18 9 = akey k18 15
    ∧ (np_argsort k18).indexOf 15 < (np_argsort k18).indexOf 9
    ∧ np_argsort k18 ≠ argsort k18
    ∧ List.Pairwise (fun a b => akey k18 a ≤ akey k18 b) (np_argsort k18) := by
  refine ⟨by decide, by decide, by decide, by decide, by decide, by decide⟩

/-- Claim C4 as amended: for memberships of at most 16 items, where the numpy
default sort runs its stable insertion-sort path, grouping reorders items so
that any item between two equal-key positions has that key (contiguity) and
equal-key items keep their ascending original order (stability); in
particular the membership A, B, A, C sorts to order 0, 2, 1, 3, the reordered
membership is A, A, B, C, and `reorder_rows` places original row 0 before
original row 2. Beyond 16 items the quicksort partition can invert ties (see
the counterexample). -/
theorem C4_stable_group_reordering_amended :
    (∀ ks : List Char, ks.length ≤ 16 →
      (∀ p q r : Fin (np_argsort ks).length,
        p ≤ q → q ≤ r →
        akey ks ((np_argsort ks).get p) = akey ks ((np_argsort ks).get r) →
        akey ks ((np_argsort ks).get q) = akey ks ((np_argsort ks).get p))
      ∧ (∀ (i j : Nat) (p q : Fin (np_argsort ks).length),
        i < j → akey ks i = akey ks j →
        (np_argsort ks).get p = i → (np_argsort ks).get q = j → p < q))
    ∧ np_argsort ['A', 'B', 'A', 'C'] = [0, 2, 1, 3]
    ∧ fancy_index ['A', 'B', 'A', 'C'] (np_argsort ['A', 'B', 'A', 'C'])
        = ['A', 'A', 'B', 'C']
    ∧ reorder_rows [[true], [false], [true], [false]] ["r0", "r1", "r2", "r3"]
        (np_argsort ['A', 'B', 'A', 'C'])
      = ([[true], [true], [false], [false]], ["r0", "r2", "r1", "r3"]) := by
  refine ⟨?_, by decide, by decide, by decide⟩
  intro ks h16
  rw [np_argsort_eq_argsort_of_small ks h16]
  exact ⟨argsort_contiguity ks, argsort_stability ks⟩

/-- Witness for C4 as amended on the example membership A, B, A, C: the two
members of group A, original rows 0 and 2, land at positions 0 and 1 in that
order. -/
theorem C4_stable_group_reordering_amended_witness :
    (⟨0, by decide⟩ : Fin (np_argsort ['A', 'B', 'A', 'C']).length) < ⟨1, by decide⟩ :=
  (C4_stable_group_reordering_amended.1 ['A', 'B', 'A', 'C'] (by decide)).2
    0 2 ⟨0, by decide⟩ ⟨1, by decide⟩ (by decide) (by decide) (by decide) (by decide)
